import Mathlib

/-!
Verification of the transducer-extension search in `src/main.py`.

The program searches for the cheapest way to extend a partially defined
finite-state transducer so that it reproduces a binary input/output trace.
We embed the program shallowly:

* Python node labels `"S0" .. "S3"` and synthesized labels `"N1", "N2", ...`
  become the inductive type `Node` (`Node.N k` stands for `"N" + str(k)`).
* The predefined transition table `DEFINED_TRANSITIONS` becomes the total
  function `definedTransitions` returning `Option (Node × Char)`.
* The `extra_transitions` dictionary becomes an insertion-ordered association
  list `ExtSet`; `dict` insertion of a fresh key is appending at the end.
* The recursion `dfs(i, current_node, extra_transitions_state, new_node_count)`
  becomes `dfsO`, structural on the list of remaining steps.  The Python
  `best = candidate if best is None or candidate[0] < best[0] else best`
  update is the fold `pickBy` over the candidate list, which preserves the
  exact candidate ordering of the source (predefined, reused extra, each
  available destination, new node).
* Iteration over the Python `set` of nodes (`INITIAL_NODES`,
  `available_nodes`) has no specified order; `dfsO`/`solveO` take the
  enumeration order of the four initial nodes as the parameter `ord`, and
  `dfs`/`solve` fix the canonical order `S0, S1, S2, S3`.  Order dependence
  itself is analysed separately.
* `lru_cache` memoization is modelled explicitly by `dfsM`, which threads a
  cache; the pure `dfs` is the reference semantics.
-/

/-- States of the transducer: the four predefined nodes of the Python table
plus synthesized nodes `N k` standing for the Python label `"N" + str(k)`. -/
inductive Node where
  | S0
  | S1
  | S2
  | S3
  | N (k : Nat)
deriving DecidableEq, Repr

/-- One trace step: a two-character input and the required output character,
as produced by slicing the input string into triplets. -/
abbrev Step := (Char × Char) × Char

/-- The `DEFINED_TRANSITIONS` table of `src/main.py`, as a function from
(node, two-character input) to the optional (destination, output). -/
def definedTransitions : Node → Char × Char → Option (Node × Char)
  | .S0, p =>
    if p = ('0', '1') then some (.S1, '1')
    else if p = ('1', '1') then some (.S1, '0')
    else if p = ('1', '0') then some (.S2, '0')
    else none
  | .S1, p => if p = ('0', '1') then some (.S3, '1') else none
  | .S2, p =>
    if p = ('0', '0') then some (.S3, '1')
    else if p = ('1', '1') then some (.S1, '0')
    else if p = ('1', '0') then some (.S3, '0')
    else none
  | .S3, p => if p = ('0', '1') then some (.S0, '1') else none
  | .N _, _ => none

/-- The `INITIAL_NODES` of the source, in the canonical enumeration order
used for the fixed-order instantiation of the search. -/
def stdNodes : List Node := [.S0, .S1, .S2, .S3]

/-- The `extra_transitions` dictionary: an insertion-ordered association list
from (node, input) to (destination, output). -/
abbrev ExtSet := List ((Node × Char × Char) × (Node × Char))

/-- Dictionary lookup `extra_transitions[(node, inp)]`. -/
def lookupExt (et : ExtSet) (k : Node × Char × Char) : Option (Node × Char) :=
  (et.find? fun e => decide (e.1 = k)).map (·.2)

/-- Dictionary insertion of a fresh key (`new_extra[(cn, inp)] = (dest, out)`
is only executed when the key is absent, so it appends in insertion order). -/
def pushExt (et : ExtSet) (cn : Node) (inp : Char × Char) (dest : Node)
    (outp : Char) : ExtSet :=
  et ++ [((cn, inp), (dest, outp))]

/-- The destination nodes appearing in the extra transitions. -/
def extDests (et : ExtSet) : List Node := et.map fun e => e.2.1

/-- First-occurrence deduplication, modelling the contents of a Python `set`
built by successive insertions. -/
def dedupF (l : List Node) : List Node :=
  l.foldl (fun acc a => if a ∈ acc then acc else acc ++ [a]) []

/-- The `available_nodes` set of the source: the initial nodes (enumerated in
order `ord`) together with every destination of an extra transition. -/
def availableNodesO (ord : List Node) (et : ExtSet) : List Node :=
  dedupF (ord ++ extDests et)

/-- One path entry, the Python tuple
`(current_node, input, required_output, destination, extra, new_node)`. -/
structure PEntry where
  frm : Node
  inp : Char × Char
  outp : Char
  dest : Node
  extra : Bool
  newNode : Bool
deriving DecidableEq, Repr

/-- The value returned by `dfs`: `(cost, path, extra_transitions,
new_node_count_final)`. -/
structure DfsRes where
  cost : Nat
  path : List PEntry
  ets : ExtSet
  cnt : Nat
deriving DecidableEq, Repr

/-- Builds a candidate from a recursive result: prepend the path entry and add
the step cost `k` (`0` for an existing transition, `1` for a new extra
transition, `2` when it also creates a node). -/
def addStep (cn : Node) (inp : Char × Char) (req : Char) (dest : Node)
    (ex nw : Bool) (k : Nat) : Option DfsRes → List DfsRes
  | some r => [⟨k + r.cost, ⟨cn, inp, req, dest, ex, nw⟩ :: r.path, r.ets, r.cnt⟩]
  | none => []

/-- One update of the running best candidate, the source's
`best = candidate if best is None or candidate[0] < best[0] else best`. -/
def pickStep {α : Type} (f : α → Nat) (best : Option α) (cand : α) : Option α :=
  match best with
  | none => some cand
  | some b => if f cand < f b then some cand else some b

/-- The sequential minimum-by-cost selection of the source, keeping the
earliest candidate on ties. -/
def pickBy {α : Type} (f : α → Nat) (l : List α) : Option α :=
  l.foldl (pickStep f) none

/-- The recursive search `dfs` of `src/main.py`, with the enumeration order of
the initial-node set as parameter `ord`.  Candidates are listed in the exact
order the source examines them: the predefined transition, the reused extra
transition, one candidate per available destination node, and the new-node
candidate; the latter two groups are guarded by the absence of any transition
for `(current_node, inp)`. -/
def dfsO (ord : List Node) : List Step → Node → ExtSet → Nat → Option DfsRes
  | [], _, et, c => some ⟨0, [], et, c⟩
  | (inp, req) :: rs, cn, et, c =>
    let c1 : List DfsRes :=
      match definedTransitions cn inp with
      | some (dest, o) =>
        if o = req then addStep cn inp req dest false false 0 (dfsO ord rs dest et c)
        else []
      | none => []
    let c2 : List DfsRes :=
      match lookupExt et (cn, inp) with
      | some (dest, o) =>
        if o = req then addStep cn inp req dest false false 0 (dfsO ord rs dest et c)
        else []
      | none => []
    let c34 : List DfsRes :=
      if definedTransitions cn inp = none ∧ lookupExt et (cn, inp) = none then
        ((availableNodesO ord et).flatMap fun dest =>
          addStep cn inp req dest true false 1
            (dfsO ord rs dest (pushExt et cn inp dest req) c)) ++
        addStep cn inp req (Node.N (c + 1)) true true 2
          (dfsO ord rs (Node.N (c + 1)) (pushExt et cn inp (Node.N (c + 1)) req) (c + 1))
      else []
    pickBy DfsRes.cost (c1 ++ c2 ++ c34)

/-- The search with the canonical enumeration order of the initial nodes. -/
def dfs : List Step → Node → ExtSet → Nat → Option DfsRes := dfsO stdNodes

/-- Splits the character list of the input string into steps
`(two-character input, required output)`, as the slicing loop of `solve`. -/
def tripletize : List Char → List Step
  | a :: b :: c :: r => ((a, b), c) :: tripletize r
  | _ => []

/-- The steps of a raw input string. -/
def stepsOf (s : String) : List Step := tripletize s.data

/-- The two failure modes of `solve`: the `ValueError` on bad length, and the
`"No valid path found."` outcome. -/
inductive SolveErr where
  | invalidLength
  | noPath
deriving DecidableEq, Repr

/-- The result reported by `solve`: the tuple
`(total_extra_cost, best_path, extra_transitions_used, total_new_nodes,
start_node)`. -/
structure SolveOut where
  cost : Nat
  path : List PEntry
  ets : ExtSet
  newNodes : Nat
  start : Node
deriving DecidableEq, Repr

/-- The top-level `solve` of `src/main.py` with the start-node enumeration
order as parameter: length check, then `dfs` from every initial node keeping
the first strictly cheaper result. -/
def solveO (ord : List Node) (s : String) : Except SolveErr SolveOut :=
  if s.length % 3 ≠ 0 then .error .invalidLength
  else
    match pickBy (fun p => p.1.cost)
        (ord.filterMap fun st => (dfsO ord (stepsOf s) st [] 0).map fun r => (r, st)) with
    | some (r, st) => .ok ⟨r.cost, r.path, r.ets, r.cnt, st⟩
    | none => .error .noPath

/-- `solve` with the canonical enumeration order. -/
def solve : String → Except SolveErr SolveOut := solveO stdNodes

/-- The `Extra Path` count printed by `solve`: the number of path entries
tagged as extra transitions. -/
def extraPathCount (p : List PEntry) : Nat := p.countP fun e => e.extra

/-- Lookup in the predefined table extended by the extra transitions
(predefined table first, as in the replaying order of the source's options). -/
def combinedLookup (et : ExtSet) (cn : Node) (inp : Char × Char) :
    Option (Node × Char) :=
  match definedTransitions cn inp with
  | some v => some v
  | none => lookupExt et (cn, inp)

/-- Replays a list of inputs from a node through the extended transition
table, returning the produced outputs when every lookup succeeds. -/
def replay (et : ExtSet) : Node → List (Char × Char) → Option (List Char)
  | _, [] => some []
  | cn, inp :: rest =>
    match combinedLookup et cn inp with
    | some (dest, o) => (replay et dest rest).map fun l => o :: l
    | none => none

/-- Path chaining: the first entry leaves `cn` and every entry's destination
is the next entry's source. -/
def chainFrom : Node → List PEntry → Bool
  | _, [] => true
  | cn, e :: p => decide (e.frm = cn) && chainFrom e.dest p

/-- Folding `pickStep` from a known best yields a best over the rest as well. -/
theorem pickStep_fold_some {α : Type} (f : α → Nat) :
    ∀ (l : List α) (b : α), ∃ b', l.foldl (pickStep f) (some b) = some b' ∧
      (b' = b ∨ b' ∈ l) ∧ f b' ≤ f b ∧ ∀ x ∈ l, f b' ≤ f x := by
  intro l
  induction l with
  | nil => intro b; exact ⟨b, rfl, Or.inl rfl, le_refl _, by simp⟩
  | cons a l ih =>
    intro b
    by_cases hab : f a < f b
    · obtain ⟨b', hfold, hmem, hle, hall⟩ := ih a
      refine ⟨b', ?_, ?_, ?_, ?_⟩
      · simpa [pickStep, hab] using hfold
      · rcases hmem with h | h
        · exact Or.inr (by simp [h])
        · exact Or.inr (by simp [h])
      · exact le_trans hle (le_of_lt hab)
      · intro x hx
        rcases List.mem_cons.mp hx with h | h
        · exact h ▸ hle
        · exact hall x h
    · obtain ⟨b', hfold, hmem, hle, hall⟩ := ih b
      refine ⟨b', ?_, ?_, hle, ?_⟩
      · simpa [pickStep, hab] using hfold
      · rcases hmem with h | h
        · exact Or.inl h
        · exact Or.inr (by simp [h])
      · intro x hx
        rcases List.mem_cons.mp hx with h | h
        · exact h ▸ le_trans hle (not_lt.mp hab)
        · exact hall x h

/-- A selected best candidate is a member of the list and minimizes `f`. -/
theorem pickBy_some {α : Type} (f : α → Nat) {l : List α} {b : α}
    (h : pickBy f l = some b) : b ∈ l ∧ ∀ x ∈ l, f b ≤ f x := by
  cases l with
  | nil => simp [pickBy] at h
  | cons a l =>
    obtain ⟨b', hfold, hmem, hle, hall⟩ := pickStep_fold_some f l a
    have hfold' : pickBy f (a :: l) = some b' := by
      simpa [pickBy, pickStep] using hfold
    have hb : b' = b := by
      rw [h] at hfold'; exact (Option.some_inj.mp hfold').symm
    subst hb
    refine ⟨?_, ?_⟩
    · rcases hmem with h' | h'
      · simp [h']
      · simp [h']
    · intro x hx
      rcases List.mem_cons.mp hx with h' | h'
      · exact h' ▸ hle
      · exact hall x h'

/-- If some candidate is in the list, selection succeeds and the selected
cost is at most that candidate's cost. -/
theorem pickBy_of_mem {α : Type} (f : α → Nat) {l : List α} {x : α}
    (hx : x ∈ l) : ∃ b, pickBy f l = some b ∧ f b ≤ f x := by
  cases l with
  | nil => simp at hx
  | cons a l =>
    obtain ⟨b', hfold, _, hle, hall⟩ := pickStep_fold_some f l a
    refine ⟨b', by simpa [pickBy, pickStep] using hfold, ?_⟩
    rcases List.mem_cons.mp hx with h' | h'
    · exact h' ▸ hle
    · exact hall x h'

/-- Membership in the result of `addStep`. -/
theorem mem_addStep {cn : Node} {inp : Char × Char} {req : Char} {dest : Node}
    {ex nw : Bool} {k : Nat} {res : Option DfsRes} {x : DfsRes} :
    x ∈ addStep cn inp req dest ex nw k res ↔
      ∃ r, res = some r ∧
        x = ⟨k + r.cost, ⟨cn, inp, req, dest, ex, nw⟩ :: r.path, r.ets, r.cnt⟩ := by
  cases res with
  | none => simp [addStep]
  | some r => simp [addStep]

/-- Membership in `dedupF` is membership in the underlying list. -/
theorem mem_dedupF {x : Node} {l : List Node} : x ∈ dedupF l ↔ x ∈ l := by
  have aux : ∀ (l acc : List Node),
      (x ∈ l.foldl (fun acc a => if a ∈ acc then acc else acc ++ [a]) acc) ↔
        x ∈ acc ∨ x ∈ l := by
    intro l
    induction l with
    | nil => intro acc; simp
    | cons a l ih =>
      intro acc
      by_cases ha : a ∈ acc
      · rw [List.foldl_cons]
        simp only [ha, if_pos]
        rw [ih acc]
        constructor
        · rintro (h | h)
          · exact Or.inl h
          · exact Or.inr (by simp [h])
        · rintro (h | h)
          · exact Or.inl h
          · rcases List.mem_cons.mp h with h' | h'
            · exact Or.inl (h' ▸ ha)
            · exact Or.inr h'
      · rw [List.foldl_cons]
        simp only [ha, if_neg, not_false_iff]
        rw [ih (acc ++ [a])]
        simp [or_assoc]
  rw [dedupF, aux]
  simp

/-- The available nodes are exactly the enumerated initial nodes together
with the destinations of the extra transitions. -/
theorem mem_availableNodesO {ord : List Node} {et : ExtSet} {x : Node} :
    x ∈ availableNodesO ord et ↔ x ∈ ord ∨ x ∈ extDests et := by
  rw [availableNodesO, mem_dedupF]
  exact List.mem_append

/-- The candidate list examined by one step of `dfsO`, in source order. -/
def dfsCands (ord : List Node) (rs : List Step) (cn : Node) (et : ExtSet)
    (c : Nat) (inp : Char × Char) (req : Char) : List DfsRes :=
  (match definedTransitions cn inp with
   | some (dest, o) =>
     if o = req then addStep cn inp req dest false false 0 (dfsO ord rs dest et c)
     else []
   | none => []) ++
  (match lookupExt et (cn, inp) with
   | some (dest, o) =>
     if o = req then addStep cn inp req dest false false 0 (dfsO ord rs dest et c)
     else []
   | none => []) ++
  (if definedTransitions cn inp = none ∧ lookupExt et (cn, inp) = none then
     ((availableNodesO ord et).flatMap fun dest =>
       addStep cn inp req dest true false 1
         (dfsO ord rs dest (pushExt et cn inp dest req) c)) ++
     addStep cn inp req (Node.N (c + 1)) true true 2
       (dfsO ord rs (Node.N (c + 1)) (pushExt et cn inp (Node.N (c + 1)) req) (c + 1))
   else [])

/-- Unfolding of `dfsO` on a non-empty step list: pick the cheapest of the
candidate list. -/
theorem dfsO_cons (ord : List Node) (rs : List Step) (cn : Node) (et : ExtSet)
    (c : Nat) (inp : Char × Char) (req : Char) :
    dfsO ord ((inp, req) :: rs) cn et c =
      pickBy DfsRes.cost (dfsCands ord rs cn et c inp req) := by
  rw [dfsO]
  rfl

/-- Characterization of the candidates examined by one `dfsO` step: a matching
predefined transition, a matching reused extra transition, or — when neither
table defines the pair — a new extra transition to an available destination or
to the freshly created node. -/
theorem mem_dfsCands {ord : List Node} {rs : List Step} {cn : Node}
    {et : ExtSet} {c : Nat} {inp : Char × Char} {req : Char} {x : DfsRes} :
    x ∈ dfsCands ord rs cn et c inp req ↔
      ((∃ dest r, definedTransitions cn inp = some (dest, req) ∧
          dfsO ord rs dest et c = some r ∧
          x = ⟨r.cost, ⟨cn, inp, req, dest, false, false⟩ :: r.path, r.ets, r.cnt⟩) ∨
       (∃ dest r, lookupExt et (cn, inp) = some (dest, req) ∧
          dfsO ord rs dest et c = some r ∧
          x = ⟨r.cost, ⟨cn, inp, req, dest, false, false⟩ :: r.path, r.ets, r.cnt⟩) ∨
       (definedTransitions cn inp = none ∧ lookupExt et (cn, inp) = none ∧
        ((∃ dest r, dest ∈ availableNodesO ord et ∧
            dfsO ord rs dest (pushExt et cn inp dest req) c = some r ∧
            x = ⟨1 + r.cost, ⟨cn, inp, req, dest, true, false⟩ :: r.path, r.ets, r.cnt⟩) ∨
         (∃ r, dfsO ord rs (Node.N (c + 1)) (pushExt et cn inp (Node.N (c + 1)) req)
              (c + 1) = some r ∧
            x = ⟨2 + r.cost, ⟨cn, inp, req, Node.N (c + 1), true, true⟩ :: r.path,
              r.ets, r.cnt⟩)))) := by
  rw [dfsCands]
  cases hd : definedTransitions cn inp with
  | some v =>
    obtain ⟨dest, o⟩ := v
    cases hl : lookupExt et (cn, inp) with
    | some w =>
      obtain ⟨dest2, o2⟩ := w
      by_cases ho : o = req <;> by_cases ho2 : o2 = req <;>
        simp [hd, hl, ho, ho2, mem_addStep, List.mem_append]
    | none =>
      by_cases ho : o = req <;>
        simp [hd, hl, ho, mem_addStep, List.mem_append]
  | none =>
    cases hl : lookupExt et (cn, inp) with
    | some w =>
      obtain ⟨dest2, o2⟩ := w
      by_cases ho2 : o2 = req <;>
        simp [hd, hl, ho2, mem_addStep, List.mem_append]
    | none =>
      simp [hd, hl, mem_addStep, List.mem_append, List.mem_flatMap]

/-- Unfolding of `dfsO` on the empty step list. -/
theorem dfsO_nil (ord : List Node) (cn : Node) (et : ExtSet) (c : Nat) :
    dfsO ord [] cn et c = some ⟨0, [], et, c⟩ := by
  rw [dfsO]

/-- A lookup that succeeds still succeeds after appending entries. -/
theorem lookupExt_append_some {et l : ExtSet} {k : Node × Char × Char}
    {v : Node × Char} (h : lookupExt et k = some v) :
    lookupExt (et ++ l) k = some v := by
  unfold lookupExt at h ⊢
  rw [List.find?_append]
  cases hf : et.find? fun e => decide (e.1 = k) with
  | none => rw [hf] at h; simp at h
  | some e => rw [hf] at h; simp [Option.orElse, hf, h]

/-- A lookup that fails on the prefix is a lookup in the suffix. -/
theorem lookupExt_append_none {et l : ExtSet} {k : Node × Char × Char}
    (h : lookupExt et k = none) :
    lookupExt (et ++ l) k = lookupExt l k := by
  unfold lookupExt at h ⊢
  rw [List.find?_append]
  cases hf : et.find? fun e => decide (e.1 = k) with
  | none => simp [Option.orElse]
  | some e => rw [hf] at h; simp at h

/-- Looking up the key of the head entry. -/
theorem lookupExt_cons_self {l : ExtSet} {k : Node × Char × Char}
    {v : Node × Char} : lookupExt ((k, v) :: l) k = some v := by
  simp [lookupExt, List.find?]

/-- A successful lookup comes from some entry of the list. -/
theorem lookupExt_some_mem {et : ExtSet} {k : Node × Char × Char}
    {v : Node × Char} (h : lookupExt et k = some v) :
    ∃ e, e ∈ et ∧ e.1 = k ∧ e.2 = v := by
  unfold lookupExt at h
  cases hf : et.find? fun e => decide (e.1 = k) with
  | none => rw [hf] at h; simp at h
  | some e =>
    rw [hf] at h
    simp at h
    have hkey := List.find?_some hf
    simp at hkey
    exact ⟨e, List.mem_of_find?_eq_some hf, hkey, h⟩

/-- Invariant of the extra-transition set: no key is already defined in the
predefined table. -/
def ExtOK (et : ExtSet) : Prop :=
  ∀ e ∈ et, definedTransitions e.1.1 e.1.2 = none

/-- Pushing an undefined key preserves the invariant. -/
theorem extOK_push {et : ExtSet} {cn : Node} {inp : Char × Char} {dest : Node}
    {o : Char} (hok : ExtOK et) (hdn : definedTransitions cn inp = none) :
    ExtOK (pushExt et cn inp dest o) := by
  intro e he
  rcases List.mem_append.mp he with h | h
  · exact hok e h
  · simp at h
    subst h
    exact hdn

/-- The extra-transition set only grows along the search: the final set is
the initial one plus appended entries. -/
theorem dfsO_ets_mono {ord : List Node} :
    ∀ {stepsL : List Step} {cn : Node} {et : ExtSet} {c : Nat} {r : DfsRes},
      dfsO ord stepsL cn et c = some r → ∃ suf, r.ets = et ++ suf := by
  intro stepsL
  induction stepsL with
  | nil =>
    intro cn et c r h
    rw [dfsO_nil] at h
    obtain rfl : (⟨0, [], et, c⟩ : DfsRes) = r := Option.some_inj.mp h
    exact ⟨[], by simp⟩
  | cons hd tl ih =>
    obtain ⟨inp, req⟩ := hd
    intro cn et c r h
    rw [dfsO_cons] at h
    rcases mem_dfsCands.mp (pickBy_some _ h).1 with
      ⟨dest, r', _, hrec, rfl⟩ | ⟨dest, r', _, hrec, rfl⟩ |
      ⟨_, _, ⟨dest, r', _, hrec, rfl⟩ | ⟨r', hrec, rfl⟩⟩
    · obtain ⟨suf, hs⟩ := ih hrec
      exact ⟨suf, hs⟩
    · obtain ⟨suf, hs⟩ := ih hrec
      exact ⟨suf, hs⟩
    · obtain ⟨suf, hs⟩ := ih hrec
      exact ⟨((cn, inp), (dest, req)) :: suf, by simpa [pushExt] using hs⟩
    · obtain ⟨suf, hs⟩ := ih hrec
      exact ⟨((cn, inp), (Node.N (c + 1), req)) :: suf, by simpa [pushExt] using hs⟩

/-- The extra-transition invariant is preserved by the search. -/
theorem dfsO_extOK {ord : List Node} :
    ∀ {stepsL : List Step} {cn : Node} {et : ExtSet} {c : Nat} {r : DfsRes},
      ExtOK et → dfsO ord stepsL cn et c = some r → ExtOK r.ets := by
  intro stepsL
  induction stepsL with
  | nil =>
    intro cn et c r hok h
    rw [dfsO_nil] at h
    obtain rfl : (⟨0, [], et, c⟩ : DfsRes) = r := Option.some_inj.mp h
    exact hok
  | cons hd tl ih =>
    obtain ⟨inp, req⟩ := hd
    intro cn et c r hok h
    rw [dfsO_cons] at h
    rcases mem_dfsCands.mp (pickBy_some _ h).1 with
      ⟨dest, r', _, hrec, rfl⟩ | ⟨dest, r', _, hrec, rfl⟩ |
      ⟨hdn, _, ⟨dest, r', _, hrec, rfl⟩ | ⟨r', hrec, rfl⟩⟩
    · show ExtOK r'.ets
      exact ih hok hrec
    · show ExtOK r'.ets
      exact ih hok hrec
    · show ExtOK r'.ets
      exact ih (extOK_push hok hdn) hrec
    · show ExtOK r'.ets
      exact ih (extOK_push hok hdn) hrec

/-- Cost accounting: the final node counter is the initial one plus the
new-node tags on the path, and the cost is the number of extra-transition
tags plus the number of new-node tags. -/
theorem dfsO_counts {ord : List Node} :
    ∀ {stepsL : List Step} {cn : Node} {et : ExtSet} {c : Nat} {r : DfsRes},
      dfsO ord stepsL cn et c = some r →
        r.cnt = c + (r.path.countP fun e => e.newNode) ∧
        r.cost = (r.path.countP fun e => e.extra) +
          (r.path.countP fun e => e.newNode) := by
  intro stepsL
  induction stepsL with
  | nil =>
    intro cn et c r h
    rw [dfsO_nil] at h
    obtain rfl : (⟨0, [], et, c⟩ : DfsRes) = r := Option.some_inj.mp h
    simp
  | cons hd tl ih =>
    obtain ⟨inp, req⟩ := hd
    intro cn et c r h
    rw [dfsO_cons] at h
    rcases mem_dfsCands.mp (pickBy_some _ h).1 with
      ⟨dest, r', _, hrec, rfl⟩ | ⟨dest, r', _, hrec, rfl⟩ |
      ⟨_, _, ⟨dest, r', _, hrec, rfl⟩ | ⟨r', hrec, rfl⟩⟩
    · obtain ⟨h1, h2⟩ := ih hrec
      simp [List.countP_cons, h1, h2]
    · obtain ⟨h1, h2⟩ := ih hrec
      simp [List.countP_cons, h1, h2]
    · obtain ⟨h1, h2⟩ := ih hrec
      simp [List.countP_cons, h1, h2]
      omega
    · obtain ⟨h1, h2⟩ := ih hrec
      simp [List.countP_cons, h1, h2]
      omega

/-- Path shape: the returned path chains from the current node and carries
exactly the inputs and required outputs of the remaining steps. -/
theorem dfsO_shape {ord : List Node} :
    ∀ {stepsL : List Step} {cn : Node} {et : ExtSet} {c : Nat} {r : DfsRes},
      dfsO ord stepsL cn et c = some r →
        chainFrom cn r.path = true ∧
        (r.path.map fun e => (e.inp, e.outp)) = stepsL := by
  intro stepsL
  induction stepsL with
  | nil =>
    intro cn et c r h
    rw [dfsO_nil] at h
    obtain rfl : (⟨0, [], et, c⟩ : DfsRes) = r := Option.some_inj.mp h
    simp [chainFrom]
  | cons hd tl ih =>
    obtain ⟨inp, req⟩ := hd
    intro cn et c r h
    rw [dfsO_cons] at h
    rcases mem_dfsCands.mp (pickBy_some _ h).1 with
      ⟨dest, r', _, hrec, rfl⟩ | ⟨dest, r', _, hrec, rfl⟩ |
      ⟨_, _, ⟨dest, r', _, hrec, rfl⟩ | ⟨r', hrec, rfl⟩⟩
    · obtain ⟨h1, h2⟩ := ih hrec
      simp [chainFrom, h1, h2]
    · obtain ⟨h1, h2⟩ := ih hrec
      simp [chainFrom, h1, h2]
    · obtain ⟨h1, h2⟩ := ih hrec
      simp [chainFrom, h1, h2]
    · obtain ⟨h1, h2⟩ := ih hrec
      simp [chainFrom, h1, h2]

/-- Replaying the remaining inputs from the current node through the
predefined table extended by the final extra transitions reproduces exactly
the required outputs. -/
theorem dfsO_replay {ord : List Node} :
    ∀ {stepsL : List Step} {cn : Node} {et : ExtSet} {c : Nat} {r : DfsRes},
      ExtOK et → dfsO ord stepsL cn et c = some r →
        replay r.ets cn (stepsL.map Prod.fst) = some (stepsL.map Prod.snd) := by
  intro stepsL
  induction stepsL with
  | nil =>
    intro cn et c r _ h
    simp [replay]
  | cons hd tl ih =>
    obtain ⟨inp, req⟩ := hd
    intro cn et c r hok h
    rw [dfsO_cons] at h
    rcases mem_dfsCands.mp (pickBy_some _ h).1 with
      ⟨dest, r', hdef, hrec, rfl⟩ | ⟨dest, r', hlk, hrec, rfl⟩ |
      ⟨hdn, hln, ⟨dest, r', _, hrec, rfl⟩ | ⟨r', hrec, rfl⟩⟩
    · have htail := ih hok hrec
      simp only [List.map_cons]
      show replay r'.ets cn (inp :: tl.map Prod.fst) = some (req :: tl.map Prod.snd)
      rw [replay, combinedLookup, hdef]
      simp [htail]
    · have htail := ih hok hrec
      obtain ⟨e, hemem, hekey, _⟩ := lookupExt_some_mem hlk
      have hdn : definedTransitions cn inp = none := by
        have := hok e hemem
        rw [hekey] at this
        exact this
      obtain ⟨suf, hs⟩ := dfsO_ets_mono hrec
      simp only [List.map_cons]
      show replay r'.ets cn (inp :: tl.map Prod.fst) = some (req :: tl.map Prod.snd)
      rw [replay, combinedLookup, hdn, hs, lookupExt_append_some hlk]
      rw [← hs]
      simp [htail]
    · have htail := ih (extOK_push hok hdn) hrec
      obtain ⟨suf, hs⟩ := dfsO_ets_mono hrec
      simp only [List.map_cons]
      show replay r'.ets cn (inp :: tl.map Prod.fst) = some (req :: tl.map Prod.snd)
      rw [replay, combinedLookup, hdn, hs, pushExt, List.append_assoc,
        lookupExt_append_none hln, List.singleton_append, lookupExt_cons_self]
      have hs' : et ++ ((cn, inp), (dest, req)) :: suf = r'.ets := by
        rw [hs, pushExt]
        simp
      rw [hs']
      simp [htail]
    · have htail := ih (extOK_push hok hdn) hrec
      obtain ⟨suf, hs⟩ := dfsO_ets_mono hrec
      simp only [List.map_cons]
      show replay r'.ets cn (inp :: tl.map Prod.fst) = some (req :: tl.map Prod.snd)
      rw [replay, combinedLookup, hdn, hs, pushExt, List.append_assoc,
        lookupExt_append_none hln, List.singleton_append, lookupExt_cons_self]
      have hs' : et ++ ((cn, inp), (Node.N (c + 1), req)) :: suf = r'.ets := by
        rw [hs, pushExt]
        simp
      rw [hs']
      simp [htail]

deriving instance DecidableEq for Except

/-- The number of steps of a trace is the character count divided by three. -/
theorem tripletize_length : ∀ l : List Char, (tripletize l).length = l.length / 3
  | [] => rfl
  | [_] => by simp [tripletize]
  | [_, _] => by simp [tripletize]
  | a :: b :: c :: r => by
    show (tripletize (a :: b :: c :: r)).length = (r.length + 3) / 3
    rw [tripletize]
    simp only [List.length_cons, tripletize_length r]
    omega

/-- Inversion of a successful `solveO`: the length check passed, the result
comes from `dfsO` at some enumerated start node, and its cost is minimal
among all start nodes that return a result. -/
theorem solveO_ok_inv {ord : List Node} {s : String} {b : SolveOut}
    (h : solveO ord s = .ok b) :
    s.length % 3 = 0 ∧
      ∃ st r, st ∈ ord ∧ dfsO ord (stepsOf s) st [] 0 = some r ∧
        b = ⟨r.cost, r.path, r.ets, r.cnt, st⟩ ∧
        ∀ st' ∈ ord, ∀ r', dfsO ord (stepsOf s) st' [] 0 = some r' →
          r.cost ≤ r'.cost := by
  unfold solveO at h
  by_cases h3 : s.length % 3 ≠ 0
  · rw [if_pos h3] at h
    cases h
  · rw [if_neg h3] at h
    cases hp : pickBy (fun p => p.1.cost)
        (ord.filterMap fun st =>
          (dfsO ord (stepsOf s) st [] 0).map fun r => (r, st)) with
    | none => rw [hp] at h; cases h
    | some p =>
      obtain ⟨r, st⟩ := p
      rw [hp] at h
      have hb : b = ⟨r.cost, r.path, r.ets, r.cnt, st⟩ := by
        cases h; rfl
      obtain ⟨hmem, hmin⟩ := pickBy_some _ hp
      rw [List.mem_filterMap] at hmem
      obtain ⟨st0, hst0, hmap⟩ := hmem
      rw [Option.map_eq_some'] at hmap
      obtain ⟨r0, hr0, hpair⟩ := hmap
      injection hpair with h1 h2
      subst h1
      subst h2
      refine ⟨by omega, st0, r0, hst0, hr0, hb, ?_⟩
      intro st' hst' r' hr'
      have hmem' : (r', st') ∈ ord.filterMap fun st =>
          (dfsO ord (stepsOf s) st [] 0).map fun r => (r, st) :=
        List.mem_filterMap.mpr ⟨st', hst', by rw [hr']; rfl⟩
      exact hmin _ hmem'

/-- The empty extra-transition set satisfies the invariant. -/
theorem extOK_nil : ExtOK [] := by
  intro e he
  simp at he

/-- C2.  For every valid trace on which `solve` returns a result, replaying
the trace inputs from the returned start state through the predefined table
extended by the returned extra transitions reproduces exactly the required
output symbol at every step. -/
theorem c2_replay_reproduces_outputs (s : String) (b : SolveOut)
    (h : solve s = .ok b) :
    replay b.ets b.start ((stepsOf s).map Prod.fst) =
      some ((stepsOf s).map Prod.snd) := by
  obtain ⟨-, st, r, -, hdfs, hb, -⟩ := solveO_ok_inv h
  subst hb
  exact dfsO_replay extOK_nil hdfs

/-- Witness for C2 at the concrete trace `"000"`. -/
theorem c2_replay_reproduces_outputs_witness :
    replay [((Node.S0, ('0', '0')), (Node.S0, '0'))] Node.S0
        ((stepsOf "000").map Prod.fst) = some ((stepsOf "000").map Prod.snd) :=
  c2_replay_reproduces_outputs "000"
    ⟨1, [⟨Node.S0, ('0', '0'), '0', Node.S0, true, false⟩],
      [((Node.S0, ('0', '0')), (Node.S0, '0'))], 0, Node.S0⟩ (by decide)

/-- C4.  The reported total cost equals the number of path entries tagged as
extra transitions plus the number of synthesized states. -/
theorem c4_cost_accounting (s : String) (b : SolveOut)
    (h : solve s = .ok b) :
    b.cost = extraPathCount b.path + b.newNodes := by
  obtain ⟨-, st, r, -, hdfs, hb, -⟩ := solveO_ok_inv h
  subst hb
  obtain ⟨h1, h2⟩ := dfsO_counts hdfs
  show r.cost = extraPathCount r.path + r.cnt
  rw [extraPathCount, h2, h1]
  omega

/-- Witness for C4 at the concrete trace `"000000"`: one extra transition is
reused once, total cost one. -/
theorem c4_cost_accounting_witness :
    (1 : Nat) = extraPathCount
        [⟨Node.S0, ('0', '0'), '0', Node.S0, true, false⟩,
         ⟨Node.S0, ('0', '0'), '0', Node.S0, false, false⟩] + 0 :=
  c4_cost_accounting "000000"
    ⟨1, [⟨Node.S0, ('0', '0'), '0', Node.S0, true, false⟩,
         ⟨Node.S0, ('0', '0'), '0', Node.S0, false, false⟩],
      [((Node.S0, ('0', '0')), (Node.S0, '0'))], 0, Node.S0⟩ (by decide)

/-- C5.  Throughout every search branch starting from an extra-transition set
that contains no predefined key, the final set still contains no predefined
key, grows only by appended entries, and never overwrites an existing
binding. -/
theorem c5_extension_invariant (stepsL : List Step) (cn : Node) (et : ExtSet)
    (c : Nat) (r : DfsRes) (hok : ExtOK et) (h : dfs stepsL cn et c = some r) :
    ExtOK r.ets ∧ ∃ suf, r.ets = et ++ suf ∧
      ∀ k v, lookupExt et k = some v → lookupExt r.ets k = some v := by
  refine ⟨dfsO_extOK hok h, ?_⟩
  obtain ⟨suf, hs⟩ := dfsO_ets_mono h
  exact ⟨suf, hs, fun k v hv => by rw [hs]; exact lookupExt_append_some hv⟩

/-- Witness for C5: the branch of `"000"` starting at `S0`. -/
theorem c5_extension_invariant_witness :
    ExtOK [((Node.S0, ('0', '0')), (Node.S0, '0'))] ∧
      ∃ suf, [((Node.S0, ('0', '0')), (Node.S0, '0'))] = [] ++ suf ∧
        ∀ k v, lookupExt [] k = some v →
          lookupExt [((Node.S0, ('0', '0')), (Node.S0, '0'))] k = some v :=
  c5_extension_invariant (stepsOf "000") Node.S0 [] 0
    ⟨1, [⟨Node.S0, ('0', '0'), '0', Node.S0, true, false⟩],
      [((Node.S0, ('0', '0')), (Node.S0, '0'))], 0⟩ extOK_nil (by decide)

/-- C7.  `solve` fails with the invalid-length error exactly when the input
length is not a multiple of three; the check precedes any search. -/
theorem c7_invalid_length_iff (s : String) :
    solve s = .error .invalidLength ↔ s.length % 3 ≠ 0 := by
  unfold solve solveO
  by_cases h3 : s.length % 3 ≠ 0
  · simp [h3]
  · rw [if_neg h3]
    simp only [iff_false, h3]
    cases hp : pickBy (fun p => p.1.cost)
        (stdNodes.filterMap fun st =>
          (dfsO stdNodes (stepsOf s) st [] 0).map fun r => (r, st)) with
    | none => simp [h3]
    | some p =>
      obtain ⟨r, st⟩ := p
      simp [h3]

/-- C9.  The empty trace yields cost zero and the empty path, and every
predefined start state yields that same zero-cost empty result. -/
theorem c9_empty_trace :
    solve "" = .ok ⟨0, [], [], 0, Node.S0⟩ ∧
      ∀ st ∈ stdNodes, dfs [] st [] 0 = some ⟨0, [], [], 0⟩ := by
  decide

/-- C10.  A returned path has one transition per trace step, starts at the
returned start state, and chains destinations to sources. -/
theorem c10_path_shape (s : String) (b : SolveOut) (h : solve s = .ok b) :
    b.path.length = s.length / 3 ∧ chainFrom b.start b.path = true := by
  obtain ⟨-, st, r, -, hdfs, hb, -⟩ := solveO_ok_inv h
  subst hb
  obtain ⟨hchain, hmap⟩ := dfsO_shape hdfs
  refine ⟨?_, hchain⟩
  have hlen : r.path.length = (stepsOf s).length := by
    rw [← hmap, List.length_map]
  rw [hlen]
  show (tripletize s.data).length = s.length / 3
  rw [tripletize_length]
  rfl

/-- Witness for C10 at the concrete trace `"000"`. -/
theorem c10_path_shape_witness :
    ([⟨Node.S0, ('0', '0'), '0', Node.S0, true, false⟩] : List PEntry).length =
        "000".length / 3 ∧
      chainFrom Node.S0 [⟨Node.S0, ('0', '0'), '0', Node.S0, true, false⟩] = true :=
  c10_path_shape "000"
    ⟨1, [⟨Node.S0, ('0', '0'), '0', Node.S0, true, false⟩],
      [((Node.S0, ('0', '0')), (Node.S0, '0'))], 0, Node.S0⟩ (by decide)

/-- C6.  The search outcome depends on the enumeration order of the unordered
set of initial nodes: on the trace `"000"`, enumerating the same four nodes
as `S0, S1, S2, S3` chooses the self-loop at `S0`, while enumerating them as
`S1, S0, S2, S3` chooses the self-loop at `S1` — an equal-cost tie broken by
container traversal order, not by a fixed deterministic rule. -/
theorem c6_order_dependence :
    solveO [Node.S0, Node.S1, Node.S2, Node.S3] "000" =
      .ok ⟨1, [⟨Node.S0, ('0', '0'), '0', Node.S0, true, false⟩],
        [((Node.S0, ('0', '0')), (Node.S0, '0'))], 0, Node.S0⟩ ∧
    solveO [Node.S1, Node.S0, Node.S2, Node.S3] "000" =
      .ok ⟨1, [⟨Node.S1, ('0', '0'), '0', Node.S1, true, false⟩],
        [((Node.S1, ('0', '0')), (Node.S1, '0'))], 0, Node.S1⟩ := by
  decide

/-- Bound on a node label relative to the synthesized-node counter: a
synthesized node `N k` must have been created already, i.e. `k ≤ c`. -/
def SrcOK (cn : Node) (c : Nat) : Prop := ∀ k, cn = Node.N k → k ≤ c

/-- All source nodes recorded in the extra transitions are already created. -/
def SrcBound (et : ExtSet) (c : Nat) : Prop := ∀ e ∈ et, SrcOK e.1.1 c

/-- `SrcOK` is monotone in the counter. -/
theorem srcOK_mono {cn : Node} {c : Nat} (h : SrcOK cn c) : SrcOK cn (c + 1) :=
  fun k hk => Nat.le_succ_of_le (h k hk)

/-- `SrcBound` is monotone in the counter. -/
theorem srcBound_mono {et : ExtSet} {c : Nat} (h : SrcBound et c) :
    SrcBound et (c + 1) :=
  fun e he => srcOK_mono (h e he)

/-- Pushing an entry whose source is already created preserves the bound. -/
theorem srcBound_push {et : ExtSet} {cn : Node} {inp : Char × Char}
    {dest : Node} {o : Char} {c : Nat} (hb : SrcBound et c) (hok : SrcOK cn c) :
    SrcBound (pushExt et cn inp dest o) c := by
  intro e he
  rcases List.mem_append.mp he with h | h
  · exact hb e h
  · simp at h
    subst h
    exact hok

/-- A not-yet-created node has no extra transition out of it. -/
theorem lookupExt_big_none {et : ExtSet} {c k : Nat} {inp : Char × Char}
    (hb : SrcBound et c) (hk : c < k) :
    lookupExt et (Node.N k, inp) = none := by
  unfold lookupExt
  have hf : et.find? (fun e => decide (e.1 = (Node.N k, inp))) = none := by
    rw [List.find?_eq_none]
    intro e he
    simp only [decide_eq_true_eq]
    intro hkey
    have hsrc : e.1.1 = Node.N k := by rw [hkey]
    have := hb e he k hsrc
    omega
  rw [hf]
  rfl

/-- Freedom at the head step: no transition exists yet for the current node
and the first input, so the new-node option is legal. -/
def FreeAt : List Step → Node → ExtSet → Prop
  | [], _, _ => True
  | (inp, _) :: _, cn, et =>
    definedTransitions cn inp = none ∧ lookupExt et (cn, inp) = none

/-- Escape lemma: from a state where the head step has no transition yet (or
the trace is finished), the search always returns a result — repeatedly
creating fresh synthesized nodes is legal from then on. -/
theorem dfsO_escape {ord : List Node} :
    ∀ {stepsL : List Step} {cn : Node} {et : ExtSet} {c : Nat},
      SrcBound et c → SrcOK cn c → FreeAt stepsL cn et →
        ∃ r, dfsO ord stepsL cn et c = some r := by
  intro stepsL
  induction stepsL with
  | nil =>
    intro cn et c _ _ _
    exact ⟨⟨0, [], et, c⟩, dfsO_nil ord cn et c⟩
  | cons hd tl ih =>
    obtain ⟨inp, req⟩ := hd
    intro cn et c hb hok hfree
    obtain ⟨hdn, hln⟩ := hfree
    have hb' : SrcBound (pushExt et cn inp (Node.N (c + 1)) req) c :=
      srcBound_push hb hok
    have hok' : SrcOK (Node.N (c + 1)) (c + 1) := by
      intro k hk
      injection hk with h
      omega
    have hfree' : FreeAt tl (Node.N (c + 1))
        (pushExt et cn inp (Node.N (c + 1)) req) := by
      cases tl with
      | nil => trivial
      | cons hd2 tl2 =>
        obtain ⟨inp2, req2⟩ := hd2
        exact ⟨rfl, lookupExt_big_none hb' (Nat.lt_succ_self c)⟩
    obtain ⟨r', hr'⟩ := ih (srcBound_mono hb') hok' hfree'
    have hcand : (⟨2 + r'.cost, ⟨cn, inp, req, Node.N (c + 1), true, true⟩ ::
        r'.path, r'.ets, r'.cnt⟩ : DfsRes) ∈ dfsCands ord tl cn et c inp req :=
      mem_dfsCands.mpr (Or.inr (Or.inr ⟨hdn, hln, Or.inr ⟨r', hr', rfl⟩⟩))
    obtain ⟨b, hpick, -⟩ := pickBy_of_mem DfsRes.cost hcand
    exact ⟨b, by rw [dfsO_cons]; exact hpick⟩

/-- Inversion of `tripletize` on a produced step. -/
theorem tripletize_cons_inv {l : List Char} {a b o : Char} {rest : List Step}
    (h : tripletize l = ((a, b), o) :: rest) :
    ∃ r, l = a :: b :: o :: r ∧ tripletize r = rest := by
  obtain - | ⟨x, - | ⟨y, - | ⟨z, r⟩⟩⟩ := l
  · simp [tripletize] at h
  · simp [tripletize] at h
  · simp [tripletize] at h
  · rw [tripletize] at h
    injection h with h1 h2
    injection h1 with h11 h12
    injection h11 with ha hbb
    subst ha
    subst hbb
    subst h12
    exact ⟨r, rfl, h2⟩

/-- C3.  For every valid binary trace whose length is a multiple of three,
`solve` returns a result: the no-solution outcome is never reported.  For
every possible first input, some predefined start state has no predefined
transition on it, and from such a free state the search can always continue
by synthesizing fresh states. -/
theorem c3_solve_always_finds_completion (s : String)
    (h3 : s.length % 3 = 0) (hbin : ∀ ch ∈ s.data, ch = '0' ∨ ch = '1') :
    ∃ b, solve s = .ok b := by
  have hstart : ∃ st r, st ∈ stdNodes ∧
      dfsO stdNodes (stepsOf s) st [] 0 = some r := by
    cases hsteps : stepsOf s with
    | nil =>
      exact ⟨Node.S0, ⟨0, [], [], 0⟩, by simp [stdNodes],
        dfsO_nil stdNodes Node.S0 [] 0⟩
    | cons hd tl =>
      obtain ⟨⟨a, b⟩, o⟩ := hd
      obtain ⟨rl, hchars, -⟩ := tripletize_cons_inv hsteps
      have ha : a = '0' ∨ a = '1' := hbin a (by rw [hchars]; simp)
      have hbc : b = '0' ∨ b = '1' := hbin b (by rw [hchars]; simp)
      rcases ha with rfl | rfl <;> rcases hbc with rfl | rfl
      · obtain ⟨r0, hr0⟩ := @dfsO_escape stdNodes ((('0', '0'), o) :: tl) Node.S0 [] 0
          (fun e he => by simp at he) (fun k hk => by simp at hk)
          ⟨by decide, rfl⟩
        exact ⟨Node.S0, r0, by simp [stdNodes], hr0⟩
      · obtain ⟨r0, hr0⟩ := @dfsO_escape stdNodes ((('0', '1'), o) :: tl) Node.S2 [] 0
          (fun e he => by simp at he) (fun k hk => by simp at hk)
          ⟨by decide, rfl⟩
        exact ⟨Node.S2, r0, by simp [stdNodes], hr0⟩
      · obtain ⟨r0, hr0⟩ := @dfsO_escape stdNodes ((('1', '0'), o) :: tl) Node.S1 [] 0
          (fun e he => by simp at he) (fun k hk => by simp at hk)
          ⟨by decide, rfl⟩
        exact ⟨Node.S1, r0, by simp [stdNodes], hr0⟩
      · obtain ⟨r0, hr0⟩ := @dfsO_escape stdNodes ((('1', '1'), o) :: tl) Node.S1 [] 0
          (fun e he => by simp at he) (fun k hk => by simp at hk)
          ⟨by decide, rfl⟩
        exact ⟨Node.S1, r0, by simp [stdNodes], hr0⟩
  obtain ⟨st, r, hst, hr⟩ := hstart
  unfold solve solveO
  rw [if_neg (by omega)]
  have hmem : (r, st) ∈ stdNodes.filterMap fun st =>
      (dfsO stdNodes (stepsOf s) st [] 0).map fun r => (r, st) :=
    List.mem_filterMap.mpr ⟨st, hst, by rw [hr]; rfl⟩
  obtain ⟨p, hpick, -⟩ := pickBy_of_mem _ hmem
  obtain ⟨rp, stp⟩ := p
  rw [hpick]
  exact ⟨⟨rp.cost, rp.path, rp.ets, rp.cnt, stp⟩, rfl⟩

/-- Witness for C3 at the concrete trace `"000"`. -/
theorem c3_solve_always_finds_completion_witness :
    ∃ b, solve "000" = .ok b :=
  c3_solve_always_finds_completion "000" (by decide) (by decide)

/-- Legal completions following the wording of spec section 4.2: from the
remaining steps, the current state, the current ExtensionSet and the
synthesized-state counter, a path and its total cost.  A predefined or reused
extension transition with matching output costs nothing; a new extension to a
state that is predefined or already a destination in the ExtensionSet costs
one; a new extension to a brand-new synthesized state costs two; the latter
two are only legal when no transition exists yet for (state, input). -/
inductive Completion :
    List Step → Node → ExtSet → Nat → List PEntry → Nat → Prop where
  | done {cn : Node} {et : ExtSet} {c : Nat} : Completion [] cn et c [] 0
  | predef {inp req rs cn et c dest p k} :
      definedTransitions cn inp = some (dest, req) →
      Completion rs dest et c p k →
      Completion ((inp, req) :: rs) cn et c
        (⟨cn, inp, req, dest, false, false⟩ :: p) k
  | reuse {inp req rs cn et c dest p k} :
      lookupExt et (cn, inp) = some (dest, req) →
      Completion rs dest et c p k →
      Completion ((inp, req) :: rs) cn et c
        (⟨cn, inp, req, dest, false, false⟩ :: p) k
  | extend {inp req rs cn et c dest p k} :
      definedTransitions cn inp = none →
      lookupExt et (cn, inp) = none →
      dest ∈ stdNodes ∨ dest ∈ extDests et →
      Completion rs dest (pushExt et cn inp dest req) c p k →
      Completion ((inp, req) :: rs) cn et c
        (⟨cn, inp, req, dest, true, false⟩ :: p) (k + 1)
  | fresh {inp req rs cn et c p k} :
      definedTransitions cn inp = none →
      lookupExt et (cn, inp) = none →
      Completion rs (Node.N (c + 1)) (pushExt et cn inp (Node.N (c + 1)) req)
        (c + 1) p k →
      Completion ((inp, req) :: rs) cn et c
        (⟨cn, inp, req, Node.N (c + 1), true, true⟩ :: p) (k + 2)

/-- Soundness: a successful search returns a path that is a legal completion
of exactly its reported cost. -/
theorem dfsO_sound :
    ∀ {stepsL : List Step} {cn : Node} {et : ExtSet} {c : Nat} {r : DfsRes},
      dfsO stdNodes stepsL cn et c = some r →
        Completion stepsL cn et c r.path r.cost := by
  intro stepsL
  induction stepsL with
  | nil =>
    intro cn et c r h
    rw [dfsO_nil] at h
    obtain rfl : (⟨0, [], et, c⟩ : DfsRes) = r := Option.some_inj.mp h
    exact Completion.done
  | cons hd tl ih =>
    obtain ⟨inp, req⟩ := hd
    intro cn et c r h
    rw [dfsO_cons] at h
    rcases mem_dfsCands.mp (pickBy_some _ h).1 with
      ⟨dest, r', hdef, hrec, rfl⟩ | ⟨dest, r', hlk, hrec, rfl⟩ |
      ⟨hdn, hln, ⟨dest, r', hav, hrec, rfl⟩ | ⟨r', hrec, rfl⟩⟩
    · exact Completion.predef hdef (ih hrec)
    · exact Completion.reuse hlk (ih hrec)
    · show Completion ((inp, req) :: tl) cn et c
        (⟨cn, inp, req, dest, true, false⟩ :: r'.path) (1 + r'.cost)
      rw [Nat.add_comm 1 r'.cost]
      exact Completion.extend hdn hln (mem_availableNodesO.mp hav) (ih hrec)
    · show Completion ((inp, req) :: tl) cn et c
        (⟨cn, inp, req, Node.N (c + 1), true, true⟩ :: r'.path) (2 + r'.cost)
      rw [Nat.add_comm 2 r'.cost]
      exact Completion.fresh hdn hln (ih hrec)

/-- Optimality: for every legal completion, the search returns a result of
cost at most the completion's cost. -/
theorem completion_dfs_le
    {stepsL : List Step} {cn : Node} {et : ExtSet} {c : Nat} {p : List PEntry}
    {k : Nat} (hcomp : Completion stepsL cn et c p k) :
    ∃ r, dfsO stdNodes stepsL cn et c = some r ∧ r.cost ≤ k := by
  induction hcomp with
  | @done cn et c =>
    exact ⟨⟨0, [], et, c⟩, dfsO_nil stdNodes cn et c, le_refl 0⟩
  | @predef inp req rs cn et c dest p k hdef hcomp ih =>
    obtain ⟨r', hr', hle⟩ := ih
    have hcand : (⟨r'.cost, ⟨cn, inp, req, dest, false, false⟩ :: r'.path,
        r'.ets, r'.cnt⟩ : DfsRes) ∈ dfsCands stdNodes rs cn et c inp req :=
      mem_dfsCands.mpr (Or.inl ⟨dest, r', hdef, hr', rfl⟩)
    obtain ⟨bb, hpick, hble⟩ := pickBy_of_mem DfsRes.cost hcand
    exact ⟨bb, by rw [dfsO_cons]; exact hpick, le_trans hble hle⟩
  | @reuse inp req rs cn et c dest p k hlk hcomp ih =>
    obtain ⟨r', hr', hle⟩ := ih
    have hcand : (⟨r'.cost, ⟨cn, inp, req, dest, false, false⟩ :: r'.path,
        r'.ets, r'.cnt⟩ : DfsRes) ∈ dfsCands stdNodes rs cn et c inp req :=
      mem_dfsCands.mpr (Or.inr (Or.inl ⟨dest, r', hlk, hr', rfl⟩))
    obtain ⟨bb, hpick, hble⟩ := pickBy_of_mem DfsRes.cost hcand
    exact ⟨bb, by rw [dfsO_cons]; exact hpick, le_trans hble hle⟩
  | @extend inp req rs cn et c dest p k hdn hln hmem hcomp ih =>
    obtain ⟨r', hr', hle⟩ := ih
    have hcand : (⟨1 + r'.cost, ⟨cn, inp, req, dest, true, false⟩ :: r'.path,
        r'.ets, r'.cnt⟩ : DfsRes) ∈ dfsCands stdNodes rs cn et c inp req :=
      mem_dfsCands.mpr (Or.inr (Or.inr ⟨hdn, hln,
        Or.inl ⟨dest, r', mem_availableNodesO.mpr hmem, hr', rfl⟩⟩))
    obtain ⟨bb, hpick, hble⟩ := pickBy_of_mem DfsRes.cost hcand
    refine ⟨bb, by rw [dfsO_cons]; exact hpick, ?_⟩
    have : bb.cost ≤ 1 + r'.cost := hble
    omega
  | @fresh inp req rs cn et c p k hdn hln hcomp ih =>
    obtain ⟨r', hr', hle⟩ := ih
    have hcand : (⟨2 + r'.cost,
        ⟨cn, inp, req, Node.N (c + 1), true, true⟩ :: r'.path,
        r'.ets, r'.cnt⟩ : DfsRes) ∈ dfsCands stdNodes rs cn et c inp req :=
      mem_dfsCands.mpr (Or.inr (Or.inr ⟨hdn, hln, Or.inr ⟨r', hr', rfl⟩⟩))
    obtain ⟨bb, hpick, hble⟩ := pickBy_of_mem DfsRes.cost hcand
    refine ⟨bb, by rw [dfsO_cons]; exact hpick, ?_⟩
    have : bb.cost ≤ 2 + r'.cost := hble
    omega

/-- C1.  For every valid trace on which `solve` returns a result, the
reported cost is achieved by a legal completion from the chosen predefined
start state, and no legal completion from any predefined start state is
cheaper: the reported cost is the minimum over all start states and all
legal completions, and choosing the start state adds no cost. -/
theorem c1_cost_is_minimum (s : String) (b : SolveOut)
    (h : solve s = .ok b) :
    (∃ st ∈ stdNodes, Completion (stepsOf s) st [] 0 b.path b.cost) ∧
      ∀ st ∈ stdNodes, ∀ p k, Completion (stepsOf s) st [] 0 p k →
        b.cost ≤ k := by
  obtain ⟨-, st, r, hst, hdfs, hb, hmin⟩ := solveO_ok_inv h
  subst hb
  constructor
  · exact ⟨st, hst, dfsO_sound hdfs⟩
  · intro st' hst' p k hcomp
    obtain ⟨r', hr', hle⟩ := completion_dfs_le hcomp
    exact le_trans (hmin st' hst' r' hr') hle

/-- Witness for C1 at the concrete trace `"000"`: the returned cost `1` is
realized by a completion and is a lower bound for all completions. -/
theorem c1_cost_is_minimum_witness :
    (∃ st ∈ stdNodes, Completion (stepsOf "000") st [] 0
        [⟨Node.S0, ('0', '0'), '0', Node.S0, true, false⟩] 1) ∧
      ∀ st ∈ stdNodes, ∀ p k, Completion (stepsOf "000") st [] 0 p k →
        1 ≤ k :=
  c1_cost_is_minimum "000"
    ⟨1, [⟨Node.S0, ('0', '0'), '0', Node.S0, true, false⟩],
      [((Node.S0, ('0', '0')), (Node.S0, '0'))], 0, Node.S0⟩ (by decide)

/-- Memoization key of the source's `lru_cache`: position in the trace
(modelled by the remaining steps), current node, extra-transition contents
and synthesized-node counter.  The Python `frozenset` of dictionary items is
modelled by the insertion-ordered association list itself. -/
abbrev MemoKey := List Step × Node × ExtSet × Nat

/-- The memoization cache: computed results keyed by `MemoKey` (the cached
value is the full optional result, as `lru_cache` also caches `None`). -/
abbrev Cache := List (MemoKey × Option DfsRes)

set_option synthInstance.maxSize 2048

/-- Cache lookup. -/
def lookupC (cache : Cache) (k : MemoKey) : Option (Option DfsRes) :=
  (cache.find? fun e : MemoKey × Option DfsRes => decide (e.1 = k)).map (·.2)

mutual

/-- The memoized search: `dfs` with its `lru_cache` made explicit.  On a
cache hit the stored result is returned unchanged; on a miss the body of
`dfs` runs (threading the cache through every recursive call, in the
source's evaluation order) and the result is stored under the key. -/
def dfsM (ord : List Node) : List Step → Node → ExtSet → Nat → Cache →
    Option DfsRes × Cache
  | [], cn, et, c, cache =>
    match lookupC cache ([], cn, et, c) with
    | some v => (v, cache)
    | none =>
      (some ⟨0, [], et, c⟩,
        (([], cn, et, c), some (⟨0, [], et, c⟩ : DfsRes)) :: cache)
  | (inp, req) :: rs, cn, et, c, cache =>
    match lookupC cache ((inp, req) :: rs, cn, et, c) with
    | some v => (v, cache)
    | none =>
      let p1 := memoStage1 ord rs cn inp req et c cache
      let p2 := memoStage2 ord rs cn inp req et c p1.2
      let p34 := memoStage34 ord rs cn inp req et c p2.2
      let res := pickBy DfsRes.cost (p1.1 ++ p2.1 ++ p34.1)
      (res, (((inp, req) :: rs, cn, et, c), res) :: p34.2)
termination_by stepsL _n _e _c _u => (stepsL.length, 0, 0)

/-- Memoized counterpart of the predefined-transition candidate. -/
def memoStage1 (ord : List Node) (rs : List Step) (cn : Node)
    (inp : Char × Char) (req : Char) (et : ExtSet) (c : Nat) (cache : Cache) :
    List DfsRes × Cache :=
  match definedTransitions cn inp with
  | some (dest, o) =>
    if o = req then
      let q := dfsM ord rs dest et c cache
      (addStep cn inp req dest false false 0 q.1, q.2)
    else ([], cache)
  | none => ([], cache)
termination_by (rs.length, 5, 0)

/-- Memoized counterpart of the reused-extra-transition candidate. -/
def memoStage2 (ord : List Node) (rs : List Step) (cn : Node)
    (inp : Char × Char) (req : Char) (et : ExtSet) (c : Nat) (cache : Cache) :
    List DfsRes × Cache :=
  match lookupExt et (cn, inp) with
  | some (dest, o) =>
    if o = req then
      let q := dfsM ord rs dest et c cache
      (addStep cn inp req dest false false 0 q.1, q.2)
    else ([], cache)
  | none => ([], cache)
termination_by (rs.length, 5, 0)

/-- Memoized counterpart of the new-extra-transition candidates. -/
def memoStage34 (ord : List Node) (rs : List Step) (cn : Node)
    (inp : Char × Char) (req : Char) (et : ExtSet) (c : Nat) (cache : Cache) :
    List DfsRes × Cache :=
  if definedTransitions cn inp = none ∧ lookupExt et (cn, inp) = none then
    let q3 := memoExtLoop ord rs cn inp req et c (availableNodesO ord et) cache
    let q4 := dfsM ord rs (Node.N (c + 1))
      (pushExt et cn inp (Node.N (c + 1)) req) (c + 1) q3.2
    (q3.1 ++ addStep cn inp req (Node.N (c + 1)) true true 2 q4.1, q4.2)
  else ([], cache)
termination_by (rs.length, 5, 0)

/-- Memoized loop over the available destination nodes. -/
def memoExtLoop (ord : List Node) (rs : List Step) (cn : Node)
    (inp : Char × Char) (req : Char) (et : ExtSet) (c : Nat) :
    List Node → Cache → List DfsRes × Cache
  | [], cache => ([], cache)
  | dest :: ds, cache =>
    let q := dfsM ord rs dest (pushExt et cn inp dest req) c cache
    let rest := memoExtLoop ord rs cn inp req et c ds q.2
    (addStep cn inp req dest true false 1 q.1 ++ rest.1, rest.2)
termination_by ds _u => (rs.length, 3, ds.length)

end

/-- The start-node loop of `solve` with the shared cache threaded through,
collecting the per-start results in enumeration order. -/
def solveRuns (ord0 : List Node) (stepsL : List Step) :
    List Node → Cache → List (DfsRes × Node) × Cache
  | [], cache => ([], cache)
  | st :: sts, cache =>
    let q := dfsM ord0 stepsL st [] 0 cache
    let rest := solveRuns ord0 stepsL sts q.2
    ((match q.1 with
      | some rr => [(rr, st)]
      | none => []) ++ rest.1, rest.2)

/-- The memoized `solve`: identical to `solve` except that the search runs
through `dfsM` with a cache created fresh (empty) inside the invocation, as
the source defines the decorated `dfs` inside `solve`. -/
def solveMemo (s : String) : Except SolveErr SolveOut :=
  if s.length % 3 ≠ 0 then .error .invalidLength
  else
    match pickBy (fun p => p.1.cost) (solveRuns stdNodes (stepsOf s) stdNodes []).1 with
    | some (r, st) => .ok ⟨r.cost, r.path, r.ets, r.cnt, st⟩
    | none => .error .noPath

/-- Soundness invariant of a cache: every stored value is the true result of
the unmemoized search at its key. -/
def CacheOK (ord : List Node) (cache : Cache) : Prop :=
  ∀ k v, lookupC cache k = some v → v = dfsO ord k.1 k.2.1 k.2.2.1 k.2.2.2

/-- The empty cache is sound. -/
theorem cacheOK_nil {ord : List Node} : CacheOK ord [] := by
  intro k v h
  simp [lookupC] at h

/-- Storing the true result of a key preserves cache soundness. -/
theorem cacheOK_cons {ord : List Node} {k : MemoKey} {v : Option DfsRes}
    {cache : Cache} (hok : CacheOK ord cache)
    (hv : v = dfsO ord k.1 k.2.1 k.2.2.1 k.2.2.2) :
    CacheOK ord ((k, v) :: cache) := by
  intro k' v' h
  by_cases hk : k = k'
  · subst hk
    simp [lookupC, List.find?_cons] at h
    rw [← h]
    exact hv
  · simp only [lookupC, List.find?_cons] at h
    rw [show (decide ((k, v).1 = k')) = false by simp [hk]] at h
    exact hok k' v' h

/-- Correctness of a memoized search at a fixed list of remaining steps: on
any sound cache it returns the unmemoized result and a sound cache. -/
def DfsMOK (ord : List Node) (rs : List Step) : Prop :=
  ∀ cn et c cache, CacheOK ord cache →
    (dfsM ord rs cn et c cache).1 = dfsO ord rs cn et c ∧
    CacheOK ord (dfsM ord rs cn et c cache).2

/-- The memoized search is correct on the empty step list. -/
theorem dfsMOK_nil {ord : List Node} : DfsMOK ord [] := by
  intro cn et c cache hok
  cases hl : lookupC cache ([], cn, et, c) with
  | some v =>
    have hstep : dfsM ord [] cn et c cache = (v, cache) := by
      rw [dfsM, hl]
    rw [hstep]
    exact ⟨hok _ _ hl, hok⟩
  | none =>
    have hstep : dfsM ord [] cn et c cache =
        (some ⟨0, [], et, c⟩,
          (([], cn, et, c), some (⟨0, [], et, c⟩ : DfsRes)) :: cache) := by
      rw [dfsM, hl]
    rw [hstep]
    refine ⟨(dfsO_nil ord cn et c).symm, cacheOK_cons hok ?_⟩
    rw [dfsO_nil]

/-- The memoized predefined-transition stage computes the unmemoized
candidate list and preserves cache soundness. -/
theorem memoStage1_correct (ord : List Node) (rs : List Step) (cn : Node)
    (inp : Char × Char) (req : Char) (et : ExtSet) (c : Nat) (cache : Cache)
    (ih : DfsMOK ord rs) (hok : CacheOK ord cache) :
    (memoStage1 ord rs cn inp req et c cache).1 =
      (match definedTransitions cn inp with
       | some (dest, o) =>
         if o = req then
           addStep cn inp req dest false false 0 (dfsO ord rs dest et c)
         else []
       | none => []) ∧
    CacheOK ord (memoStage1 ord rs cn inp req et c cache).2 := by
  unfold memoStage1
  cases hd : definedTransitions cn inp with
  | none => exact ⟨rfl, hok⟩
  | some v =>
    obtain ⟨dest, o⟩ := v
    by_cases ho : o = req
    · obtain ⟨h1, h2⟩ := ih dest et c cache hok
      constructor
      · simp only [ho, if_pos]
        rw [h1]
      · simpa [ho] using h2
    · simp only [ho, if_neg, not_false_iff]
      exact ⟨trivial, hok⟩

/-- The memoized reused-extra stage computes the unmemoized candidate list
and preserves cache soundness. -/
theorem memoStage2_correct (ord : List Node) (rs : List Step) (cn : Node)
    (inp : Char × Char) (req : Char) (et : ExtSet) (c : Nat) (cache : Cache)
    (ih : DfsMOK ord rs) (hok : CacheOK ord cache) :
    (memoStage2 ord rs cn inp req et c cache).1 =
      (match lookupExt et (cn, inp) with
       | some (dest, o) =>
         if o = req then
           addStep cn inp req dest false false 0 (dfsO ord rs dest et c)
         else []
       | none => []) ∧
    CacheOK ord (memoStage2 ord rs cn inp req et c cache).2 := by
  unfold memoStage2
  cases hd : lookupExt et (cn, inp) with
  | none => exact ⟨rfl, hok⟩
  | some v =>
    obtain ⟨dest, o⟩ := v
    by_cases ho : o = req
    · obtain ⟨h1, h2⟩ := ih dest et c cache hok
      constructor
      · simp only [ho, if_pos]
        rw [h1]
      · simpa [ho] using h2
    · simp only [ho, if_neg, not_false_iff]
      exact ⟨trivial, hok⟩

/-- The memoized loop over destination nodes computes the unmemoized
candidate lists and preserves cache soundness. -/
theorem memoExtLoop_correct (ord : List Node) (rs : List Step) (cn : Node)
    (inp : Char × Char) (req : Char) (et : ExtSet) (c : Nat)
    (ih : DfsMOK ord rs) :
    ∀ (ds : List Node) (cache : Cache), CacheOK ord cache →
      (memoExtLoop ord rs cn inp req et c ds cache).1 =
        ds.flatMap (fun dest =>
          addStep cn inp req dest true false 1
            (dfsO ord rs dest (pushExt et cn inp dest req) c)) ∧
      CacheOK ord (memoExtLoop ord rs cn inp req et c ds cache).2 := by
  intro ds
  induction ds with
  | nil =>
    intro cache hok
    rw [memoExtLoop]
    exact ⟨by simp, hok⟩
  | cons dest ds ihds =>
    intro cache hok
    obtain ⟨h1, h2⟩ := ih dest (pushExt et cn inp dest req) c cache hok
    obtain ⟨h3, h4⟩ := ihds _ h2
    rw [memoExtLoop]
    constructor
    · show addStep cn inp req dest true false 1
          (dfsM ord rs dest (pushExt et cn inp dest req) c cache).1 ++
          (memoExtLoop ord rs cn inp req et c ds
            (dfsM ord rs dest (pushExt et cn inp dest req) c cache).2).1 = _
      rw [h1, h3, List.flatMap_cons]
    · exact h4

/-- The memoized new-extension stage computes the unmemoized candidate list
and preserves cache soundness. -/
theorem memoStage34_correct (ord : List Node) (rs : List Step) (cn : Node)
    (inp : Char × Char) (req : Char) (et : ExtSet) (c : Nat) (cache : Cache)
    (ih : DfsMOK ord rs) (hok : CacheOK ord cache) :
    (memoStage34 ord rs cn inp req et c cache).1 =
      (if definedTransitions cn inp = none ∧ lookupExt et (cn, inp) = none then
        ((availableNodesO ord et).flatMap fun dest =>
          addStep cn inp req dest true false 1
            (dfsO ord rs dest (pushExt et cn inp dest req) c)) ++
        addStep cn inp req (Node.N (c + 1)) true true 2
          (dfsO ord rs (Node.N (c + 1))
            (pushExt et cn inp (Node.N (c + 1)) req) (c + 1))
      else []) ∧
    CacheOK ord (memoStage34 ord rs cn inp req et c cache).2 := by
  unfold memoStage34
  by_cases hg : definedTransitions cn inp = none ∧ lookupExt et (cn, inp) = none
  · obtain ⟨h3, h4⟩ := memoExtLoop_correct ord rs cn inp req et c ih
      (availableNodesO ord et) cache hok
    obtain ⟨h5, h6⟩ := ih (Node.N (c + 1))
      (pushExt et cn inp (Node.N (c + 1)) req) (c + 1) _ h4
    constructor
    · simp only [hg, if_pos, and_self]
      rw [h3, h5]
    · simpa [hg] using h6
  · simp only [hg, if_neg, not_false_iff]
    exact ⟨trivial, hok⟩

/-- Memoization is sound: on any sound cache, the memoized search returns
exactly the unmemoized result and leaves the cache sound. -/
theorem dfsM_correct {ord : List Node} :
    ∀ (n : Nat) (rs : List Step), rs.length ≤ n → DfsMOK ord rs := by
  intro n
  induction n with
  | zero =>
    intro rs hlen
    obtain rfl : rs = [] := List.length_eq_zero.mp (Nat.le_zero.mp hlen)
    exact dfsMOK_nil
  | succ n ihn =>
    intro rs hlen
    cases rs with
    | nil => exact dfsMOK_nil
    | cons hd tl =>
      obtain ⟨inp, req⟩ := hd
      have ihtl : DfsMOK ord tl := ihn tl (by simp at hlen; omega)
      intro cn et c cache hok
      cases hl : lookupC cache ((inp, req) :: tl, cn, et, c) with
      | some v =>
        have hstep : dfsM ord ((inp, req) :: tl) cn et c cache = (v, cache) := by
          rw [dfsM, hl]
        rw [hstep]
        exact ⟨hok _ _ hl, hok⟩
      | none =>
        obtain ⟨h1, h2⟩ :=
          memoStage1_correct ord tl cn inp req et c cache ihtl hok
        obtain ⟨h3, h4⟩ := memoStage2_correct ord tl cn inp req et c _ ihtl h2
        obtain ⟨h5, h6⟩ := memoStage34_correct ord tl cn inp req et c _ ihtl h4
        simp only [dfsM, hl]
        rw [h1, h3, h5]
        refine ⟨?_, ?_⟩
        · rw [dfsO_cons]
          rfl
        · refine cacheOK_cons h6 ?_
          show pickBy DfsRes.cost _ = dfsO ord ((inp, req) :: tl) cn et c
          rw [dfsO_cons]
          rfl

/-- The memoized start-node loop collects exactly the per-start results of
the unmemoized search. -/
theorem solveRuns_correct {ord0 : List Node} {stepsL : List Step} :
    ∀ (sts : List Node) (cache : Cache), CacheOK ord0 cache →
      (solveRuns ord0 stepsL sts cache).1 =
        sts.filterMap (fun st =>
          (dfsO ord0 stepsL st [] 0).map fun r => (r, st)) ∧
      CacheOK ord0 (solveRuns ord0 stepsL sts cache).2 := by
  intro sts
  induction sts with
  | nil =>
    intro cache hok
    rw [solveRuns]
    exact ⟨rfl, hok⟩
  | cons st sts ihs =>
    intro cache hok
    obtain ⟨h1, h2⟩ :=
      dfsM_correct stepsL.length stepsL (le_refl _) st [] 0 cache hok
    obtain ⟨h3, h4⟩ := ihs _ h2
    rw [solveRuns]
    constructor
    · show (match (dfsM ord0 stepsL st [] 0 cache).1 with
          | some rr => [(rr, st)]
          | none => []) ++
          (solveRuns ord0 stepsL sts (dfsM ord0 stepsL st [] 0 cache).2).1 = _
      rw [h1, h3, List.filterMap_cons]
      cases dfsO ord0 stepsL st [] 0 <;> simp
    · exact h4

/-- C8.  The memoized `solve` — whose cache is created empty inside the
invocation, exactly as the `lru_cache`-decorated `dfs` is defined inside the
source's `solve` — agrees with the cache-free search on every input.  In
particular two invocations on the same trace, each with a fresh cache,
report the same minimal cost. -/
theorem c8_memoized_solve_agrees (s : String) : solveMemo s = solve s := by
  unfold solveMemo solve solveO
  by_cases h3 : s.length % 3 ≠ 0
  · simp [h3]
  · rw [if_neg h3, if_neg h3]
    obtain ⟨h1, -⟩ :=
      @solveRuns_correct stdNodes (stepsOf s) stdNodes [] cacheOK_nil
    rw [h1]
